import Mathlib

/-
  Verification of the dirtcloud-server core: the domain error taxonomy,
  the metadata path normalizer and namespace store (package sqlite,
  MetadataRepository), and the resource lifecycle service (package service).

  Go strings are modelled as Lean `String` (with `.data : List Char` for
  character-level algorithms); Go `int` is modelled as `Int`; Go `error`
  returns are modelled with `Except DirtError`; the SQLite-backed metadata
  table is modelled as an association list from canonical path to value.
-/

namespace DirtCloud

/-- Detail values stored in a DirtError's details map
    (Go: map[string]interface{}; the code only ever stores strings,
    integers, and string slices). -/
inductive DetailValue where
  | str (s : String)
  | int (n : Int)
  | strList (l : List String)
deriving DecidableEq, Repr

/-- DirtError (domain package): structured domain error with a code,
    a message, and an optional details map. -/
structure DirtError where
  code : String
  message : String
  details : List (String × DetailValue)
deriving DecidableEq, Repr

/-- Error code constants from the domain package. -/
def ErrorCodeNotFound : String := "NOT_FOUND"

def ErrorCodeAlreadyExists : String := "ALREADY_EXISTS"

def ErrorCodeInvalidInput : String := "INVALID_INPUT"

def ErrorCodeForeignKeyViolation : String := "FOREIGN_KEY_VIOLATION"

def ErrorCodeInternalError : String := "INTERNAL_ERROR"

/-- domain.NotFoundError. -/
def NotFoundError (resource identifier : String) : DirtError :=
  { code := ErrorCodeNotFound
    message := resource ++ " not found"
    details := [("resource", .str resource), ("identifier", .str identifier)] }

/-- domain.InvalidInputError. -/
def InvalidInputError (message : String) (details : List (String × DetailValue)) : DirtError :=
  { code := ErrorCodeInvalidInput, message := message, details := details }

/-- domain.ForeignKeyViolationError. -/
def ForeignKeyViolationError (resource field value : String) : DirtError :=
  { code := ErrorCodeForeignKeyViolation
    message := "Referenced " ++ resource ++ " with " ++ field ++ " '" ++ value ++ "' does not exist"
    details := [("resource", .str resource), ("field", .str field), ("value", .str value)] }

/-- domain.IsNotFound. -/
def IsNotFound (e : DirtError) : Bool := e.code == ErrorCodeNotFound

/-- domain.IsInvalidInput. -/
def IsInvalidInput (e : DirtError) : Bool := e.code == ErrorCodeInvalidInput

/-- domain.IsForeignKeyViolation. -/
def IsForeignKeyViolation (e : DirtError) : Bool := e.code == ErrorCodeForeignKeyViolation

/- ---------------------------------------------------------------------
   Path normalizer (sqlite package, normalizePath) over List Char.
--------------------------------------------------------------------- -/

/-- Splitting a character list at every slash (the segment view used by
    Go's path.Clean; an empty list yields one empty segment). -/
def splitSlash : List Char → List (List Char)
  | [] => [[]]
  | c :: cs =>
    if c = '/' then [] :: splitSlash cs
    else
      match splitSlash cs with
      | [] => [[c]]
      | s :: rest => (c :: s) :: rest

/-- One step of Go path.Clean's segment resolution for a rooted path:
    empty and dot segments are dropped, a dotdot segment pops the previous
    segment (or is dropped at the root), any other segment is kept. -/
def resolveStep (acc : List (List Char)) (s : List Char) : List (List Char) :=
  if s = [] ∨ s = ['.'] then acc
  else if s = ['.', '.'] then acc.dropLast
  else acc ++ [s]

/-- Segment resolution of Go path.Clean for a rooted path. -/
def resolveSegs (segs : List (List Char)) : List (List Char) :=
  segs.foldl resolveStep []

/-- Joining segments with slashes. -/
def joinSegs : List (List Char) → List Char
  | [] => []
  | [s] => s
  | s :: rest => s ++ '/' :: joinSegs rest

/-- Go path.Clean restricted to rooted inputs (every call site in
    normalizePath first forces a leading slash): resolve dot, dotdot and
    empty segments; if nothing remains the result is the root. -/
def cleanRooted (p : List Char) : List Char :=
  let r := resolveSegs (splitSlash p)
  if r = [] then ['/'] else '/' :: joinSegs r

/-- sqlite normalizePath on character lists: force a leading slash, clean,
    and map a "." result back to "/" (the Go code keeps this check even
    though Clean of a rooted path never returns "."). -/
def normalizeChars (p : List Char) : List Char :=
  let q := if p.head? = some '/' then p else '/' :: p
  let cleaned := cleanRooted q
  if cleaned = ['.'] then ['/'] else cleaned

/-- sqlite normalizePath. -/
def normalizePath (p : String) : String := ⟨normalizeChars p.data⟩

/- ---------------------------------------------------------------------
   SQLite LIKE (used by MetadataRepository.List via "path LIKE ?" with
   pattern normalizedPrefix+"%").
--------------------------------------------------------------------- -/

/-- ASCII lower-casing as performed by SQLite's default LIKE comparison
    (sqlite3UpperToLower folds only A-Z). -/
def asciiLowerChar (c : Char) : Char :=
  if 'A' ≤ c ∧ c ≤ 'Z' then Char.ofNat (c.toNat + 32) else c

/-- SQLite default LIKE matching (case-insensitive on ASCII letters,
    with the percent wildcard matching any run of characters and the
    underscore wildcard matching exactly one character), written with a
    structural fuel so that it is a structurally recursive definition.
    Every recursive call shrinks pattern-length plus string-length, so any
    fuel above that sum is sufficient. -/
def likeFuel : Nat → List Char → List Char → Bool
  | 0, _, _ => false
  | _ + 1, [], [] => true
  | _ + 1, [], _ :: _ => false
  | f + 1, '%' :: ps, [] => likeFuel f ps []
  | f + 1, '%' :: ps, c :: cs => likeFuel f ps (c :: cs) || likeFuel f ('%' :: ps) cs
  | _ + 1, '_' :: _, [] => false
  | f + 1, '_' :: ps, _ :: cs => likeFuel f ps cs
  | _ + 1, _ :: _, [] => false
  | f + 1, p :: ps, c :: cs => (asciiLowerChar p == asciiLowerChar c) && likeFuel f ps cs

/-- SQLite LIKE with sufficient fuel. -/
def likeMatch (p s : List Char) : Bool := likeFuel (p.length + s.length + 1) p s

/- ---------------------------------------------------------------------
   Byte order on paths ("ORDER BY path" under SQLite's BINARY collation;
   on UTF-8 encoded text, bytewise order coincides with code-point
   lexicographic order) and an insertion sort implementing it.
--------------------------------------------------------------------- -/

/-- Lexicographic comparison of character lists by code point. -/
def charListLe : List Char → List Char → Bool
  | [], _ => true
  | _ :: _, [] => false
  | a :: as, b :: bs => a.toNat < b.toNat || (a == b && charListLe as bs)

/-- Byte order on paths. -/
def pathLe (a b : String) : Bool := charListLe a.data b.data

/-- Insertion into a list sorted by pathLe. -/
def insertPath (x : String) : List String → List String
  | [] => [x]
  | y :: ys => if pathLe x y then x :: y :: ys else y :: insertPath x ys

/-- Sorting a list of paths ascending by pathLe (models ORDER BY path). -/
def sortPaths (l : List String) : List String := l.foldr insertPath []

/- ---------------------------------------------------------------------
   Metadata namespace store (sqlite package, MetadataRepository).
--------------------------------------------------------------------- -/

/-- Result rows returned by the metadata repository (domain.Metadata;
    timestamps are irrelevant to the verified properties and omitted). -/
structure Metadata where
  path : String
  value : String
deriving DecidableEq, Repr

/-- The metadata table: one row per path key with its value
    (INSERT OR REPLACE keeps the path column unique). -/
abbrev MetaStore := List (String × String)

/-- MetadataRepository.Set: normalize the path, then INSERT OR REPLACE the
    row; returns the new table and the Metadata value the method returns. -/
def storeSet (st : MetaStore) (p v : String) : MetaStore × Metadata :=
  let np := normalizePath p
  (st.filter (fun e => e.1 != np) ++ [(np, v)], ⟨np, v⟩)

/-- MetadataRepository.Get: normalize the path and select the row with
    that path, failing with domain.NotFoundError when no row matches. -/
def storeGet (st : MetaStore) (p : String) : Except DirtError Metadata :=
  let np := normalizePath p
  match st.find? (fun e => e.1 == np) with
  | some e => .ok ⟨e.1, e.2⟩
  | none => .error (NotFoundError "metadata" np)

/-- MetadataRepository.List: when the Prefix option is nonempty, keep the
    rows whose path matches the SQL pattern normalizedPrefix+"%" under
    LIKE; order the selected paths by the path column (string argument
    models opts.Prefix). -/
def storeList (st : MetaStore) (pfx : String) : List String :=
  let keys := st.map Prod.fst
  let selected :=
    if pfx = "" then keys
    else
      let np := normalizePath pfx
      keys.filter (fun q => likeMatch (np.data ++ ['%']) q.data)
  sortPaths selected

/-- MetadataRepository.Delete: first Get the path (propagating its
    NotFound failure), then delete the row at the normalized path. -/
def storeDelete (st : MetaStore) (p : String) : Except DirtError MetaStore :=
  let np := normalizePath p
  match storeGet st p with
  | .error e => .error e
  | .ok _ => .ok (st.filter (fun e => e.1 != np))

/- ---------------------------------------------------------------------
   Service layer metadata operations (service package).
--------------------------------------------------------------------- -/

/-- Service.SetMetadata: reject the empty path with InvalidInput, else
    delegate to the store. -/
def SetMetadata (st : MetaStore) (p v : String) : Except DirtError (MetaStore × Metadata) :=
  if p = "" then .error (InvalidInputError "metadata path cannot be empty" [])
  else .ok (storeSet st p v)

/-- Service.GetMetadata: reject the empty path with InvalidInput, else
    delegate to the store. -/
def GetMetadata (st : MetaStore) (p : String) : Except DirtError Metadata :=
  if p = "" then .error (InvalidInputError "metadata path cannot be empty" [])
  else storeGet st p

/-- Service.ListMetadata: delegates directly to the store with the options
    (string argument models opts.Prefix); no path precondition is
    checked. -/
def ListMetadata (st : MetaStore) (pfx : String) : Except DirtError (List String) :=
  .ok (storeList st pfx)

/-- Service.DeleteMetadata: reject the empty path with InvalidInput, else
    delegate to the store. -/
def DeleteMetadata (st : MetaStore) (p : String) : Except DirtError MetaStore :=
  if p = "" then .error (InvalidInputError "metadata path cannot be empty" [])
  else storeDelete st p

/- ---------------------------------------------------------------------
   Traces of metadata operations, for reachable-state invariants.
--------------------------------------------------------------------- -/

/-- One public metadata operation (the path arguments are surface paths;
    get and listOp never change the table, del changes it only when the
    store-level Delete succeeds). -/
inductive MetaOp where
  | set (p v : String)
  | get (p : String)
  | listOp (f : String)
  | del (p : String)

/-- State transition of one metadata operation on the backing table. -/
def execOp (st : MetaStore) : MetaOp → MetaStore
  | .set p v => (storeSet st p v).1
  | .get _ => st
  | .listOp _ => st
  | .del p =>
    match storeDelete st p with
    | .ok st2 => st2
    | .error _ => st

/-- The table reached by running a sequence of operations from the empty
    table (nothing is pre-seeded). -/
def runOps (ops : List MetaOp) : MetaStore := ops.foldl execOp []

/- ---------------------------------------------------------------------
   Resource lifecycle service: instances (service package).
--------------------------------------------------------------------- -/

/-- domain.Project (only the fields the verified properties need). -/
structure Project where
  id : String
  name : String
deriving DecidableEq, Repr

/-- domain.Instance (timestamps omitted). -/
structure Instance where
  id : String
  projectID : String
  name : String
  cpu : Int
  memoryMB : Int
  image : String
  status : String
deriving DecidableEq, Repr

/-- domain.CreateInstanceRequest. -/
structure CreateInstanceRequest where
  projectID : String
  name : String
  cpu : Int
  memoryMB : Int
  image : String
  status : String
deriving DecidableEq, Repr

/-- domain.UpdateInstanceRequest (every field optional). -/
structure UpdateInstanceRequest where
  name : Option String
  cpu : Option Int
  memoryMB : Option Int
  image : Option String
  status : Option String
deriving DecidableEq, Repr

/-- Character class of the name validation pattern (alphanumeric, dash,
    underscore). -/
def isNameChar (c : Char) : Bool :=
  (decide ('a' ≤ c) && decide (c ≤ 'z')) ||
  (decide ('A' ≤ c) && decide (c ≤ 'Z')) ||
  (decide ('0' ≤ c) && decide (c ≤ '9')) ||
  c == '_' || c == '-'

/-- service validateInstanceName (len in Go counts bytes). -/
def validateInstanceName (name : String) : Except DirtError Unit :=
  if name = "" then
    .error (InvalidInputError "instance name cannot be empty" [])
  else if name.utf8ByteSize > 255 then
    .error (InvalidInputError "instance name too long"
      [("max_length", .int 255), ("actual", .int name.utf8ByteSize)])
  else if !(name.data.all isNameChar) then
    .error (InvalidInputError
      "instance name can only contain alphanumeric characters, dashes, and underscores" [])
  else .ok ()

/-- service validateInstanceSpecs. -/
def validateInstanceSpecs (cpu memoryMB : Int) (image : String) : Except DirtError Unit :=
  if cpu ≤ 0 then
    .error (InvalidInputError "CPU must be positive" [("cpu", .int cpu)])
  else if cpu > 64 then
    .error (InvalidInputError "CPU too high" [("max_cpu", .int 64), ("actual", .int cpu)])
  else if memoryMB ≤ 0 then
    .error (InvalidInputError "memory must be positive" [("memory_mb", .int memoryMB)])
  else if memoryMB > 512 * 1024 then
    .error (InvalidInputError "memory too high"
      [("max_memory_mb", .int (512 * 1024)), ("actual", .int memoryMB)])
  else if image = "" then
    .error (InvalidInputError "image cannot be empty" [])
  else if image.utf8ByteSize > 255 then
    .error (InvalidInputError "image name too long"
      [("max_length", .int 255), ("actual", .int image.utf8ByteSize)])
  else .ok ()

/-- domain.StatusRunning. -/
def StatusRunning : String := "running"

/-- domain.StatusStopped. -/
def StatusStopped : String := "stopped"

/-- service validateInstanceStatus. -/
def validateInstanceStatus (status : String) : Except DirtError Unit :=
  if status ≠ StatusRunning ∧ status ≠ StatusStopped then
    .error (InvalidInputError "invalid status"
      [("valid_statuses", .strList [StatusRunning, StatusStopped]), ("actual", .str status)])
  else .ok ()

/-- Service.UpdateInstance decision logic. getById models the result of
    s.instanceRepo.GetByID(id) (only consulted when cpu or memoryMB is
    present, exactly as in the Go code); a returned `.ok req` means every
    check passed and s.instanceRepo.Update(id, req) is invoked with the
    unchanged request; a returned `.error e` is produced before any
    persistence write. -/
def UpdateInstanceService (getById : Except DirtError Instance)
    (req : UpdateInstanceRequest) : Except DirtError UpdateInstanceRequest :=
  let nameCheck : Except DirtError Unit :=
    match req.name with
    | some n => validateInstanceName n
    | none => .ok ()
  match nameCheck with
  | .error e => .error e
  | .ok _ =>
    let specCheck : Except DirtError Unit :=
      if req.cpu.isSome || req.memoryMB.isSome then
        match getById with
        | .error e => .error e
        | .ok current =>
          let cpu := match req.cpu with | some c => c | none => current.cpu
          let memory := match req.memoryMB with | some m => m | none => current.memoryMB
          let image := match req.image with | some i => i | none => current.image
          validateInstanceSpecs cpu memory image
      else .ok ()
    match specCheck with
    | .error e => .error e
    | .ok _ =>
      let statusCheck : Except DirtError Unit :=
        match req.status with
        | some s => validateInstanceStatus s
        | none => .ok ()
      match statusCheck with
      | .error e => .error e
      | .ok _ => .ok req

/-- Service.CreateInstance decision logic. getProject models the result of
    s.projectRepo.GetByID(req.ProjectID); newId models the generated
    identifier; a returned `.ok inst` means every check passed and
    s.instanceRepo.Create(inst) is invoked with inst; a returned
    `.error e` is produced before any persistence write. -/
def CreateInstanceService (getProject : Except DirtError Project) (newId : String)
    (req : CreateInstanceRequest) : Except DirtError Instance :=
  match validateInstanceName req.name with
  | .error e => .error e
  | .ok _ =>
    match validateInstanceSpecs req.cpu req.memoryMB req.image with
    | .error e => .error e
    | .ok _ =>
      let status := if req.status = "" then StatusRunning else req.status
      match validateInstanceStatus status with
      | .error e => .error e
      | .ok _ =>
        match getProject with
        | .error e =>
          if IsNotFound e then .error (ForeignKeyViolationError "project" "id" req.projectID)
          else .error e
        | .ok _ =>
          .ok { id := newId, projectID := req.projectID, name := req.name, cpu := req.cpu
                memoryMB := req.memoryMB, image := req.image, status := status }

/- ---------------------------------------------------------------------
   Verification predicates.
--------------------------------------------------------------------- -/

/-- Shape of a segment surviving resolution: nonempty, not the dot
    segment, not the dotdot segment, and slash-free. -/
def GoodSeg (s : List Char) : Prop :=
  s ≠ [] ∧ s ≠ ['.'] ∧ s ≠ ['.', '.'] ∧ '/' ∉ s

/-- The table holds at most one row per path key. -/
def uniqueKeys (st : MetaStore) : Prop := (st.map Prod.fst).Nodup

/- ---------------------------------------------------------------------
   Path normalizer lemmas.
--------------------------------------------------------------------- -/

theorem splitSlash_ne_nil (p : List Char) : splitSlash p ≠ [] := by
  cases p with
  | nil => simp [splitSlash]
  | cons c cs =>
    simp only [splitSlash]
    split
    · simp
    · split <;> simp

theorem noSlash_of_mem_splitSlash (p : List Char) : ∀ s ∈ splitSlash p, '/' ∉ s := by
  induction p with
  | nil =>
    intro s hs
    simp [splitSlash] at hs
    simp [hs]
  | cons c cs ih =>
    intro s hs
    by_cases hc : c = '/'
    · subst hc
      simp only [splitSlash, if_pos rfl, if_true, List.mem_cons] at hs
      rcases hs with h | h
      · simp [h]
      · exact ih s h
    · rcases h1 : splitSlash cs with _ | ⟨s0, rest⟩
      · exact absurd h1 (splitSlash_ne_nil cs)
      · simp only [splitSlash, if_neg hc, h1, List.mem_cons] at hs
        rcases hs with h | h
        · subst h
          intro hm
          rcases List.mem_cons.1 hm with h2 | h2
          · exact hc h2.symm
          · exact ih s0 (h1 ▸ List.mem_cons_self s0 rest) h2
        · exact ih s (h1 ▸ List.mem_cons_of_mem s0 h)

theorem goodSeg_foldl (segs : List (List Char)) :
    ∀ acc, (∀ s ∈ acc, GoodSeg s) → (∀ s ∈ segs, '/' ∉ s) →
      ∀ s ∈ List.foldl resolveStep acc segs, GoodSeg s := by
  induction segs with
  | nil =>
    intro acc hacc _ s hs
    exact hacc s hs
  | cons x xs ih =>
    intro acc hacc hseg s hs
    rw [List.foldl_cons] at hs
    refine ih (resolveStep acc x) ?_ (fun t ht => hseg t (List.mem_cons_of_mem _ ht)) s hs
    intro t ht
    by_cases h1 : x = [] ∨ x = ['.']
    · rw [resolveStep, if_pos h1] at ht
      exact hacc t ht
    · by_cases h2 : x = ['.', '.']
      · rw [resolveStep, if_neg h1, if_pos h2] at ht
        exact hacc t ((List.dropLast_sublist acc).subset ht)
      · rw [resolveStep, if_neg h1, if_neg h2] at ht
        rcases List.mem_append.1 ht with h | h
        · exact hacc t h
        · rcases List.mem_singleton.1 h with rfl
          push_neg at h1
          exact ⟨h1.1, h1.2, h2, hseg t (List.mem_cons_self t xs)⟩

theorem splitSlash_no_slash (s : List Char) (h : '/' ∉ s) : splitSlash s = [s] := by
  induction s with
  | nil => rfl
  | cons c cs ih =>
    have hc : c ≠ '/' := fun e => h (e ▸ List.mem_cons_self c cs)
    have h' : '/' ∉ cs := fun m => h (List.mem_cons_of_mem _ m)
    simp [splitSlash, hc, ih h']

theorem splitSlash_append (s t : List Char) (h : '/' ∉ s) :
    splitSlash (s ++ '/' :: t) = s :: splitSlash t := by
  induction s with
  | nil => simp [splitSlash]
  | cons c cs ih =>
    have hc : c ≠ '/' := fun e => h (e ▸ List.mem_cons_self c cs)
    have h' : '/' ∉ cs := fun m => h (List.mem_cons_of_mem _ m)
    simp [splitSlash, hc, ih h']

theorem splitSlash_joinSegs : ∀ (segs : List (List Char)), segs ≠ [] →
    (∀ s ∈ segs, '/' ∉ s) → splitSlash (joinSegs segs) = segs := by
  intro segs
  induction segs with
  | nil => intro h; exact absurd rfl h
  | cons s rest ih =>
    intro _ hall
    cases rest with
    | nil => simpa [joinSegs] using splitSlash_no_slash s (hall s (by simp))
    | cons r rest2 =>
      have hjoin : joinSegs (s :: r :: rest2) = s ++ '/' :: joinSegs (r :: rest2) := rfl
      rw [hjoin, splitSlash_append s _ (hall s (by simp)),
        ih (by simp) (fun t ht => hall t (List.mem_cons_of_mem _ ht))]

theorem foldl_resolveStep_good : ∀ (segs : List (List Char)) (acc : List (List Char)),
    (∀ s ∈ segs, GoodSeg s) → List.foldl resolveStep acc segs = acc ++ segs := by
  intro segs
  induction segs with
  | nil => intro acc _; simp
  | cons x xs ih =>
    intro acc hall
    have hx := hall x (by simp)
    have hstep : resolveStep acc x = acc ++ [x] := by
      rw [resolveStep, if_neg, if_neg hx.2.2.1]
      rintro (h | h)
      exacts [hx.1 h, hx.2.1 h]
    rw [List.foldl_cons, hstep, ih (acc ++ [x]) (fun t ht => hall t (by simp [ht]))]
    simp

theorem cleanRooted_ne_dot (p : List Char) : cleanRooted p ≠ ['.'] := by
  by_cases h : resolveSegs (splitSlash p) = [] <;> simp [cleanRooted, h]

theorem normalizeChars_eq (l : List Char) :
    normalizeChars l = cleanRooted (if l.head? = some '/' then l else '/' :: l) := by
  have h := cleanRooted_ne_dot (if l.head? = some '/' then l else '/' :: l)
  simp [normalizeChars, h]

theorem goodSeg_resolve_splitSlash (q : List Char) :
    ∀ s ∈ resolveSegs (splitSlash q), GoodSeg s :=
  goodSeg_foldl _ [] (by simp) (noSlash_of_mem_splitSlash q)

theorem normalizeChars_idem (l : List Char) :
    normalizeChars (normalizeChars l) = normalizeChars l := by
  rw [normalizeChars_eq l]
  set q := if l.head? = some '/' then l else '/' :: l with hq
  have hgood := goodSeg_resolve_splitSlash q
  by_cases hr : resolveSegs (splitSlash q) = []
  · have hc : cleanRooted q = ['/'] := by simp [cleanRooted, hr]
    rw [hc]
    rfl
  · have hc : cleanRooted q = '/' :: joinSegs (resolveSegs (splitSlash q)) := by
      simp [cleanRooted, hr]
    have h1 : splitSlash (joinSegs (resolveSegs (splitSlash q))) = resolveSegs (splitSlash q) :=
      splitSlash_joinSegs _ hr (fun s hs => (hgood s hs).2.2.2)
    have h2 : resolveSegs (splitSlash ('/' :: joinSegs (resolveSegs (splitSlash q)))) =
        resolveSegs (splitSlash q) := by
      have hsplit : splitSlash ('/' :: joinSegs (resolveSegs (splitSlash q))) =
          [] :: resolveSegs (splitSlash q) := by
        simp [splitSlash, h1]
      rw [hsplit, resolveSegs, List.foldl_cons]
      have : resolveStep [] [] = [] := rfl
      rw [this]
      exact (foldl_resolveStep_good _ [] hgood).trans (by simp)
    rw [hc, normalizeChars_eq]
    have hhead : (('/' : Char) :: joinSegs (resolveSegs (splitSlash q))).head? = some '/' := rfl
    rw [if_pos hhead, cleanRooted, h2, if_neg hr, ← hc]

/-- C5: path normalization is a total function on strings (it is a Lean
    function) and idempotent: normalize applied twice equals normalize
    applied once, for every string including the empty string, the dot,
    and the slash. -/
theorem normalizePath_idempotent (p : String) :
    normalizePath (normalizePath p) = normalizePath p :=
  congrArg String.mk (normalizeChars_idem p.data)

/- ---------------------------------------------------------------------
   Store lemmas and claims about the metadata namespace.
--------------------------------------------------------------------- -/

/-- C6: Set at p followed by Get at any p-prime with the same canonical
    form succeeds and returns the entry written, whose value is v (and
    whose path is the canonical form). -/
theorem storeSet_storeGet (st : MetaStore) (p v p' : String)
    (h : normalizePath p' = normalizePath p) :
    storeGet (storeSet st p v).1 p' = .ok ⟨normalizePath p, v⟩ := by
  simp only [storeGet, storeSet, h]
  rw [List.find?_append]
  have hnone : List.find? (fun e => e.1 == normalizePath p)
      (st.filter (fun e => e.1 != normalizePath p)) = none := by
    rw [List.find?_eq_none]
    intro x hx
    have hne := (List.mem_filter.1 hx).2
    simp only [bne_iff_ne, ne_eq] at hne
    simp [hne]
  rw [hnone]
  simp [List.find?]

/-- Witness for C6 at a concrete store, path pair and value. -/
theorem storeSet_storeGet_witness :
    storeGet (storeSet [] "/a/b" "v").1 "a//b" = .ok ⟨"/a/b", "v"⟩ := by
  have h := storeSet_storeGet [] "/a/b" "v" "a//b" (by decide)
  simpa using h

/-- C10: the Metadata entry returned by the store's Set carries the
    canonical path (normalize of the surface argument) and the value that
    was written. -/
theorem storeSet_returns_canonical (st : MetaStore) (p v : String) :
    (storeSet st p v).2.path = normalizePath p ∧ (storeSet st p v).2.value = v :=
  ⟨rfl, rfl⟩

/-- Counterexample to C4: service-layer ListMetadata with the empty
    string does not return an InvalidInput error; it delegates to the
    store, which lists every path. -/
theorem listMetadata_empty_not_rejected :
    ListMetadata [("/a", "v")] "" = .ok ["/a"] := rfl

/-- C4 as amended: Set, Get and Delete at the service layer reject the
    empty path with InvalidInput before reaching the store, but List has
    no such precondition: with the empty filter it invokes the store and
    returns all stored paths. -/
theorem service_empty_path_precondition :
    (∀ (st : MetaStore) (v : String),
      SetMetadata st "" v = .error (InvalidInputError "metadata path cannot be empty" []))
    ∧ (∀ st : MetaStore,
      GetMetadata st "" = .error (InvalidInputError "metadata path cannot be empty" []))
    ∧ (∀ st : MetaStore,
      DeleteMetadata st "" = .error (InvalidInputError "metadata path cannot be empty" []))
    ∧ (∀ st : MetaStore, ListMetadata st "" = .ok (sortPaths (st.map Prod.fst))) :=
  ⟨fun _ _ => rfl, fun _ => rfl, fun _ => rfl, fun _ => rfl⟩

/- ---------------------------------------------------------------------
   Claims about the instance lifecycle service.
--------------------------------------------------------------------- -/

/-- Counterexample to C2: an UpdateInstance request carrying only an
    invalid image (the empty string) is not rejected; the service passes
    it to persistence unchanged, even though the spec validator rejects
    that image. -/
theorem updateInstance_imageOnly_accepted :
    UpdateInstanceService (.ok ⟨"i1", "p1", "inst", 4, 1024, "x", "running"⟩)
        ⟨none, none, none, some "", none⟩ =
      .ok ⟨none, none, none, some "", none⟩
    ∧ validateInstanceSpecs 4 1024 "" =
      .error (InvalidInputError "image cannot be empty" []) :=
  ⟨rfl, rfl⟩

/-- C2 as amended: a present name is validated and a present status is
    validated, and presence of cpu or memoryMB triggers merged spec
    validation; but a request in which only the image field is present is
    not validated at all — the update proceeds to persistence. -/
theorem updateInstance_imageOnly_skips_validation
    (g : Except DirtError Instance) (req : UpdateInstanceRequest)
    (hn : req.name = none) (hc : req.cpu = none) (hm : req.memoryMB = none)
    (hs : req.status = none) :
    UpdateInstanceService g req = .ok req := by
  rcases req with ⟨n, c, m, i, s⟩
  simp only at hn hc hm hs
  subst hn; subst hc; subst hm; subst hs
  rfl

/-- Witness for the amended C2 at a concrete request. -/
theorem updateInstance_imageOnly_witness :
    UpdateInstanceService (.ok ⟨"i1", "p1", "inst", 4, 1024, "x", "running"⟩)
        ⟨none, none, none, some "zzz", none⟩ =
      .ok ⟨none, none, none, some "zzz", none⟩ :=
  updateInstance_imageOnly_skips_validation _ _ rfl rfl rfl rfl

/-- C8: when cpu or memoryMB is present, UpdateInstance fetches the
    current instance (a failing fetch aborts the update with that error)
    and validates the merged current-plus-incoming cpu/memory/image
    triple before persisting: a failing merged validation aborts the
    update with the validator's InvalidInput error; in particular, for a
    stored instance with cpu 4, memory 1024, image "x", an update
    supplying only memoryMB 99999999 fails InvalidInput on the memory
    bound. -/
theorem updateInstance_merged_validation :
    (∀ (cur : Instance) (req : UpdateInstanceRequest) (e : DirtError),
      (req.cpu.isSome || req.memoryMB.isSome) = true →
      (match req.name with
        | some n => validateInstanceName n
        | none => Except.ok ()) = Except.ok () →
      validateInstanceSpecs
          (match req.cpu with | some c => c | none => cur.cpu)
          (match req.memoryMB with | some m => m | none => cur.memoryMB)
          (match req.image with | some i => i | none => cur.image) = .error e →
      UpdateInstanceService (.ok cur) req = .error e)
    ∧ (∀ (req : UpdateInstanceRequest) (e : DirtError),
      (req.cpu.isSome || req.memoryMB.isSome) = true →
      (match req.name with
        | some n => validateInstanceName n
        | none => Except.ok ()) = Except.ok () →
      UpdateInstanceService (.error e) req = .error e)
    ∧ (UpdateInstanceService (.ok ⟨"i1", "p1", "inst", 4, 1024, "x", "running"⟩)
        ⟨none, none, some 99999999, none, none⟩ =
        .error (InvalidInputError "memory too high"
          [("max_memory_mb", .int 524288), ("actual", .int 99999999)])) := by
  refine ⟨?_, ?_, rfl⟩
  · intro cur req e hsome hname hspec
    simp only [UpdateInstanceService, hname]
    rw [if_pos hsome, hspec]
  · intro req e hsome hname
    simp only [UpdateInstanceService, hname]
    rw [if_pos hsome]

/-- Witness for C8 at a concrete instance and request. -/
theorem updateInstance_merged_validation_witness :
    UpdateInstanceService (.ok ⟨"i2", "p2", "inst2", 4, 1024, "x", "running"⟩)
        ⟨none, none, some 0, none, none⟩ =
      .error (InvalidInputError "memory must be positive" [("memory_mb", .int 0)]) :=
  updateInstance_merged_validation.1 ⟨"i2", "p2", "inst2", 4, 1024, "x", "running"⟩
    ⟨none, none, some 0, none, none⟩
    (InvalidInputError "memory must be positive" [("memory_mb", .int 0)]) rfl rfl rfl

/-- C9: a CreateInstance request with valid name, spec and status whose
    project lookup fails NotFound is rejected with a ForeignKeyViolation
    error whose details carry resource equal to "project" (the NotFound
    is re-kinded), and nothing is persisted (the service returns before
    the repository Create call, which only an ok result models). -/
theorem createInstance_rekinds_missing_project
    (gp : DirtError) (newId : String) (req : CreateInstanceRequest)
    (hname : validateInstanceName req.name = .ok ())
    (hspec : validateInstanceSpecs req.cpu req.memoryMB req.image = .ok ())
    (hstatus : validateInstanceStatus
      (if req.status = "" then StatusRunning else req.status) = .ok ())
    (hnf : IsNotFound gp = true) :
    CreateInstanceService (.error gp) newId req =
      .error (ForeignKeyViolationError "project" "id" req.projectID)
    ∧ ("resource", DetailValue.str "project") ∈
        (ForeignKeyViolationError "project" "id" req.projectID).details
    ∧ IsForeignKeyViolation (ForeignKeyViolationError "project" "id" req.projectID) = true := by
  refine ⟨?_, by simp [ForeignKeyViolationError], rfl⟩
  simp only [CreateInstanceService, hname, hspec, hstatus]
  rw [if_pos hnf]

/-- Witness for C9 at a concrete request and NotFound lookup result. -/
theorem createInstance_rekinds_witness :
    CreateInstanceService (.error (NotFoundError "project" "p1")) "id1"
        ⟨"p1", "inst", 1, 1, "img", ""⟩ =
      .error (ForeignKeyViolationError "project" "id" "p1")
    ∧ ("resource", DetailValue.str "project") ∈
        (ForeignKeyViolationError "project" "id" "p1").details
    ∧ IsForeignKeyViolation (ForeignKeyViolationError "project" "id" "p1") = true :=
  createInstance_rekinds_missing_project (NotFoundError "project" "p1") "id1"
    ⟨"p1", "inst", 1, 1, "img", ""⟩ rfl rfl rfl rfl

/- ---------------------------------------------------------------------
   Reachable-state invariants of the metadata table.
--------------------------------------------------------------------- -/

theorem uniqueKeys_storeSet (st : MetaStore) (p v : String) (h : uniqueKeys st) :
    uniqueKeys (storeSet st p v).1 := by
  unfold uniqueKeys storeSet
  rw [List.map_append, List.nodup_append]
  refine ⟨((List.filter_sublist st).map Prod.fst).nodup h, by simp, ?_⟩
  intro t ht ht2
  simp only [List.map_cons, List.map_nil, List.mem_singleton] at ht2
  rcases List.mem_map.1 ht with ⟨e, he, heq⟩
  have hne := (List.mem_filter.1 he).2
  simp only [bne_iff_ne, ne_eq] at hne
  exact hne (heq.trans ht2)

theorem uniqueKeys_execOp (st : MetaStore) (op : MetaOp) (h : uniqueKeys st) :
    uniqueKeys (execOp st op) := by
  cases op with
  | set p v => exact uniqueKeys_storeSet st p v h
  | get _ => exact h
  | listOp _ => exact h
  | del p =>
    simp only [execOp]
    split
    · next st2 heq =>
      simp only [storeDelete] at heq
      split at heq
      · exact absurd heq (by simp)
      · cases heq
        exact ((List.filter_sublist st).map Prod.fst).nodup h
    · exact h

theorem uniqueKeys_foldl (ops : List MetaOp) :
    ∀ st, uniqueKeys st → uniqueKeys (ops.foldl execOp st) := by
  induction ops with
  | nil => intro st h; exact h
  | cons op ops ih =>
    intro st h
    rw [List.foldl_cons]
    exact ih _ (uniqueKeys_execOp st op h)

/-- C7: every sequence of metadata operations run from the empty table
    keeps at most one row per canonical path; in particular the two Set
    calls with surface variants "/a/b" and "a//b" leave exactly one
    entry, listed once by List with an empty filter and holding the
    later value. -/
theorem at_most_one_entry_per_canonical_path :
    (∀ ops : List MetaOp, uniqueKeys (runOps ops))
    ∧ (storeSet (storeSet [] "/a/b" "v1").1 "a//b" "v2").1 = [("/a/b", "v2")]
    ∧ storeList (storeSet (storeSet [] "/a/b" "v1").1 "a//b" "v2").1 "" = ["/a/b"]
    ∧ storeGet (storeSet (storeSet [] "/a/b" "v1").1 "a//b" "v2").1 "/a/b" =
        .ok ⟨"/a/b", "v2"⟩ :=
  ⟨fun ops => uniqueKeys_foldl ops [] (by simp [uniqueKeys]), rfl, rfl, rfl⟩

/-- Counterexample to C3: the canonical root is a perfectly storable key.
    The service-layer Set accepts the non-empty surface path "/", stores
    an entry at the canonical root, and Get at "/" then succeeds instead
    of failing NotFound. -/
theorem root_entry_reachable :
    SetMetadata [] "/" "v" = .ok ([("/", "v")], ⟨"/", "v"⟩)
    ∧ runOps [MetaOp.set "/" "v"] = [("/", "v")]
    ∧ storeGet (runOps [MetaOp.set "/" "v"]) "/" = .ok ⟨"/", "v"⟩
    ∧ GetMetadata (runOps [MetaOp.set "/" "v"]) "/" = .ok ⟨"/", "v"⟩
    ∧ normalizePath "/" = "/" :=
  ⟨rfl, rfl, rfl, rfl, rfl⟩

theorem keys_ne_root_foldl : ∀ (ops : List MetaOp) (st : MetaStore),
    (∀ e ∈ st, e.1 ≠ "/") → (∀ p v, MetaOp.set p v ∈ ops → normalizePath p ≠ "/") →
    ∀ e ∈ ops.foldl execOp st, e.1 ≠ "/" := by
  intro ops
  induction ops with
  | nil => intro st hst _ e he; exact hst e he
  | cons op ops ih =>
    intro st hst hops e he
    rw [List.foldl_cons] at he
    refine ih (execOp st op) ?_ (fun p v hm => hops p v (List.mem_cons_of_mem _ hm)) e he
    intro e2 he2
    cases op with
    | set p v =>
      simp only [execOp, storeSet] at he2
      rcases List.mem_append.1 he2 with h | h
      · exact hst e2 ((List.filter_sublist st).subset h)
      · rcases List.mem_singleton.1 h with rfl
        exact hops p v (List.mem_cons_self _ _)
    | get _ => exact hst e2 he2
    | listOp _ => exact hst e2 he2
    | del p =>
      simp only [execOp] at he2
      split at he2
      · next st2 heq =>
        simp only [storeDelete] at heq
        split at heq
        · exact absurd heq (by simp)
        · cases heq
          exact hst e2 ((List.filter_sublist st).subset he2)
      · exact hst e2 he2

/-- C3 as amended: nothing is pre-seeded at the canonical root, and as
    long as no Set whose surface path normalizes to "/" has been
    performed, no entry is stored at "/" and Get applied to any path
    normalizing to "/" (such as "", ".", "/") fails NotFound; but a Set
    whose path normalizes to "/" (see the counterexample) does store an
    entry there. -/
theorem no_root_entry_without_root_set (ops : List MetaOp)
    (h : ∀ p v, MetaOp.set p v ∈ ops → normalizePath p ≠ "/") :
    (∀ e ∈ runOps ops, e.1 ≠ "/")
    ∧ ∀ q, normalizePath q = "/" →
        storeGet (runOps ops) q = .error (NotFoundError "metadata" "/") := by
  have hkeys : ∀ e ∈ runOps ops, e.1 ≠ "/" :=
    keys_ne_root_foldl ops [] (by simp) h
  refine ⟨hkeys, ?_⟩
  intro q hq
  simp only [storeGet, hq]
  have hnone : List.find? (fun e => e.1 == "/") (runOps ops) = none := by
    rw [List.find?_eq_none]
    intro x hx
    simp [hkeys x hx]
  rw [hnone]

/-- Witness for the amended C3: after a single Set away from the root,
    Get of the empty surface path (which normalizes to the root) fails
    NotFound. -/
theorem no_root_entry_witness :
    storeGet (runOps [MetaOp.set "/a" "v"]) "" = .error (NotFoundError "metadata" "/") :=
  (no_root_entry_without_root_set [MetaOp.set "/a" "v"] (by
      intro p v hm
      rw [List.mem_singleton] at hm
      injection hm with h1 h2
      subst h1
      decide)).2 "" (by decide)

/- ---------------------------------------------------------------------
   Order lemmas for the path sort, and the List claim.
--------------------------------------------------------------------- -/

theorem char_toNat_inj (a b : Char) (h : a.toNat = b.toNat) : a = b := by
  apply Char.ext
  apply UInt32.ext
  exact h

theorem charListLe_total : ∀ a b : List Char, charListLe a b = true ∨ charListLe b a = true := by
  intro a
  induction a with
  | nil => intro b; left; rfl
  | cons x xs ih =>
    intro b
    cases b with
    | nil => right; rfl
    | cons y ys =>
      rcases Nat.lt_trichotomy x.toNat y.toNat with h | h | h
      · left; simp [charListLe, h]
      · have hxy : x = y := char_toNat_inj x y h
        subst hxy
        rcases ih ys with h2 | h2
        · left; simp [charListLe, h2]
        · right; simp [charListLe, h2]
      · right; simp [charListLe, h]

theorem charListLe_trans : ∀ a b c : List Char,
    charListLe a b = true → charListLe b c = true → charListLe a c = true := by
  intro a
  induction a with
  | nil => intro b c _ _; rfl
  | cons x xs ih =>
    intro b c hab hbc
    cases b with
    | nil => simp [charListLe] at hab
    | cons y ys =>
      cases c with
      | nil => simp [charListLe] at hbc
      | cons z zs =>
        simp only [charListLe, Bool.or_eq_true, Bool.and_eq_true, beq_iff_eq,
          decide_eq_true_eq] at hab hbc ⊢
        rcases hab with h1 | ⟨rfl, h1⟩
        · rcases hbc with h2 | ⟨rfl, h2⟩
          · exact Or.inl (h1.trans h2)
          · exact Or.inl h1
        · rcases hbc with h2 | ⟨rfl, h2⟩
          · exact Or.inl h2
          · exact Or.inr ⟨rfl, ih ys zs h1 h2⟩

theorem pathLe_total (a b : String) : pathLe a b = true ∨ pathLe b a = true :=
  charListLe_total a.data b.data

theorem pathLe_trans {a b c : String} (h1 : pathLe a b = true) (h2 : pathLe b c = true) :
    pathLe a c = true :=
  charListLe_trans a.data b.data c.data h1 h2

theorem mem_insertPath (x q : String) : ∀ l, (q ∈ insertPath x l ↔ q = x ∨ q ∈ l) := by
  intro l
  induction l with
  | nil => simp [insertPath]
  | cons y ys ih =>
    simp only [insertPath]
    split
    · exact List.mem_cons
    · simp only [List.mem_cons, ih]
      tauto

theorem mem_sortPaths (q : String) : ∀ l, q ∈ sortPaths l ↔ q ∈ l := by
  intro l
  induction l with
  | nil => simp [sortPaths]
  | cons x xs ih =>
    have hs : sortPaths (x :: xs) = insertPath x (sortPaths xs) := rfl
    rw [hs, mem_insertPath]
    simp [ih, List.mem_cons]

theorem pairwise_insertPath (x : String) :
    ∀ l, List.Pairwise (fun a b => pathLe a b = true) l →
      List.Pairwise (fun a b => pathLe a b = true) (insertPath x l) := by
  intro l
  induction l with
  | nil => intro _; simp [insertPath]
  | cons y ys ih =>
    intro hp
    rcases List.pairwise_cons.1 hp with ⟨hy, hys⟩
    simp only [insertPath]
    split
    · next hle =>
      refine List.pairwise_cons.2 ⟨?_, hp⟩
      intro z hz
      rcases List.mem_cons.1 hz with rfl | hz2
      · exact hle
      · exact pathLe_trans hle (hy z hz2)
    · next hnle =>
      have hyx : pathLe y x = true := by
        rcases pathLe_total x y with h | h
        · exact absurd h hnle
        · exact h
      refine List.pairwise_cons.2 ⟨?_, ih hys⟩
      intro z hz
      rcases (mem_insertPath x z ys).1 hz with rfl | hz2
      · exact hyx
      · exact hy z hz2

theorem pairwise_sortPaths : ∀ l, List.Pairwise (fun a b => pathLe a b = true) (sortPaths l) := by
  intro l
  induction l with
  | nil => simp [sortPaths]
  | cons x xs ih => exact pairwise_insertPath x (sortPaths xs) ih

/-- Counterexample to C1: the filter is applied through SQL LIKE, so a
    filter containing the underscore wildcard (a legal path character)
    matches stored paths of which it is not a literal string prefix, and
    matching is ASCII case-insensitive. -/
theorem storeList_not_literal_match :
    storeList (storeSet [] "/ab" "v").1 "/a_" = ["/ab"]
    ∧ normalizePath "/a_" = "/a_"
    ∧ "/a_".data.isPrefixOf "/ab".data = false
    ∧ storeList (storeSet [] "/AB" "v").1 "/ab" = ["/AB"] :=
  ⟨by decide, by decide, by decide, by decide⟩

/-- C1 as amended: List with an empty filter returns all stored paths;
    List with a non-empty filter returns exactly the stored paths
    matching the SQL LIKE pattern normalize(filter) plus a trailing
    percent (underscore matching any single character, percent any run,
    ASCII letters case-insensitively) rather than plain literal-prefix
    comparison; and the result is always sorted ascending in path byte
    order. -/
theorem storeList_like_semantics :
    (∀ (st : MetaStore) (q : String), q ∈ storeList st "" ↔ q ∈ st.map Prod.fst)
    ∧ (∀ (st : MetaStore) (f q : String), f ≠ "" →
        (q ∈ storeList st f ↔
          q ∈ st.map Prod.fst ∧ likeMatch ((normalizePath f).data ++ ['%']) q.data = true))
    ∧ (∀ (st : MetaStore) (f : String),
        List.Pairwise (fun a b => pathLe a b = true) (storeList st f)) := by
  refine ⟨?_, ?_, ?_⟩
  · intro st q
    simp only [storeList, if_pos rfl]
    exact mem_sortPaths q _
  · intro st f q hf
    simp only [storeList, if_neg hf]
    rw [mem_sortPaths]
    simp [List.mem_filter]
  · intro st f
    simp only [storeList]
    exact pairwise_sortPaths _

/-- Witness for the amended C1 at a concrete store and filter. -/
theorem storeList_like_semantics_witness :
    "/ab" ∈ storeList [("/ab", "v")] "/a" :=
  (storeList_like_semantics.2.1 [("/ab", "v")] "/a" "/ab" (by decide)).2
    ⟨by decide, by decide⟩

end DirtCloud
